import Mathlib

/-!
Verification of the additive-synthesis core of `chord_trainer.py`
(`calc_B`, `_play`, its nested `callback`, and `play_chord`).

Floating-point arithmetic in the source is modelled by real arithmetic, as
the specification's tolerance phrasing directs ("exactly over real
arithmetic; within floating-point tolerance in the implementation").
Numpy arrays of shape (P,) are modelled as functions `Fin P → ℝ` (for the
renderer state) and as Lean lists (for the builder, which appends per-ratio
pieces and concatenates).  The three parallel arrays `f_list`, `amp_list`,
`tau_list` built by `_play` are index-aligned by construction, so the
builder produces a single list of (frequency, amplitude, decay) triples;
the session then projects the three arrays out of it.
-/

namespace ChordTrainer

/-- The synthesis parameters read from `self` at the top of `_play`
(`fs`, `jitter`, `rolloff_coeff` p, `decay_time` tau0, `decay_exponent` d,
`duration`) together with the `calc_B` parameters `f0`, `B0`, `beta` and
`n_harmonics`. -/
structure SynthParams where
  fs : ℕ
  n_harmonics : ℕ
  rolloff_coeff : ℝ
  decay_time : ℝ
  decay_exponent : ℝ
  f0 : ℝ
  B0 : ℝ
  beta : ℝ
  jitter : ℝ
  duration : ℝ

/-- `calc_B(self, f): return self.B0 * (f / self.f0)**self.beta`
(real exponent, so `^` is `Real.rpow`). -/
noncomputable def calc_B (s : SynthParams) (f : ℝ) : ℝ :=
  s.B0 * (f / s.f0) ^ s.beta

/-- Result of the Python `eval(r)` call on one ratio-expression string:
`ok v` when the expression evaluates to the number `v`, `err` when
evaluation raises (e.g. the string "abc"). -/
inductive EvalResult where
  | ok (v : ℝ)
  | err

/-- One iteration of the `for r in ratios` loop of `_play`, for a ratio
whose `eval` succeeded with value `v`: `pitch = self.base_freq * eval(r)`,
`B = self.calc_B(pitch)`, `k = np.arange(1, self.n_harmonics + 1)`,
`f_k = pitch * k * np.sqrt(1 + B * k**2)`, plus the uniform jitter draw
added to `f_k` when `jitter > 0` (the draw for harmonic `k` is `draw k`),
`amp = 1.0 / (k**p)` and `tauk = tau0 / (k**d)`.  The three aligned numpy
arrays are returned as one list of (frequency, amplitude, decay) triples,
indexed by `j = k - 1`. -/
noncomputable def buildRatioParts (s : SynthParams) (base v : ℝ)
    (draw : ℕ → ℝ) : List (ℝ × ℝ × ℝ) :=
  let pitch := base * v
  let B := calc_B s pitch
  (List.range s.n_harmonics).map (fun j =>
    let k : ℝ := ((j + 1 : ℕ) : ℝ)
    let fk0 := pitch * k * Real.sqrt (1 + B * k ^ (2 : ℕ))
    let fk := if 0 < s.jitter then fk0 + draw (j + 1) else fk0
    (fk, 1 / k ^ s.rolloff_coeff, s.decay_time / k ^ s.decay_exponent))

/-- The whole partial-building loop of `_play` over the ratio list.
`draw i k` is the uniform jitter sample for harmonic `k` of the `i`-th
ratio (numpy draws one such sample per (ratio, harmonic) pair, once per
chord build).  A ratio whose `eval` raises aborts `_play` with an
uncaught exception, modelled by `Except.error`: no partial collection is
produced. -/
noncomputable def buildParts (s : SynthParams) (base : ℝ)
    (ratios : List EvalResult) (draw : ℕ → ℕ → ℝ) (i : ℕ) :
    Except Unit (List (ℝ × ℝ × ℝ)) :=
  match ratios with
  | [] => .ok []
  | .err :: _ => .error ()
  | .ok v :: rest =>
      match buildParts s base rest draw (i + 1) with
      | .error e => .error e
      | .ok tail => .ok (buildRatioParts s base v (draw i) ++ tail)

/-- The state captured by the `callback` closure in `_play`: the three
concatenated partial arrays (shape `(P,)`), the normalization constant
`norm`, the sample rate `fs`, and the two mutable cells `phases` and
`t_cur`.  `P` is the total number of partials. -/
structure Session (P : ℕ) where
  f_list : Fin P → ℝ
  amp_list : Fin P → ℝ
  tau_list : Fin P → ℝ
  norm : ℝ
  fs : ℕ
  phases : Fin P → ℝ
  t_cur : ℝ

/-- Steps 1)-2) of `_play` after the loop: concatenate the per-ratio
pieces into single arrays of length `P`, set
`norm = 0.3 / np.sum(amp_list)`, and initialise the render state with
`phases = np.zeros_like(f_list)` and `t_cur = 0.0`. -/
noncomputable def mkSession (fs : ℕ) (parts : List (ℝ × ℝ × ℝ)) :
    Session parts.length where
  f_list := fun i => (parts.get i).1
  amp_list := fun i => (parts.get i).2.1
  tau_list := fun i => (parts.get i).2.2
  norm := 0.3 / (parts.map (fun x => x.2.1)).sum
  fs := fs
  phases := fun _ => 0
  t_cur := 0

/-- The partial-construction phase of `_play` end to end: build the flat
partial collection from the ratio list and, if no ratio failed, package it
with the normalization constant and a zeroed render state. -/
noncomputable def playBuild (s : SynthParams) (base : ℝ)
    (ratios : List EvalResult) (draw : ℕ → ℕ → ℝ) :
    Except Unit ((P : ℕ) × Session P) :=
  match buildParts s base ratios draw 0 with
  | .error e => .error e
  | .ok parts => .ok ⟨parts.length, mkSession s.fs parts⟩

/-- `play_chord(self, ratios)` spawns a daemon thread running `_play` and
returns to its caller at once; the value it returns synchronously is
produced before the thread body runs, so no error from `_play` can reach
it.  The spawned thread handle is modelled by `()`. -/
def play_chord (ratios : List EvalResult) : Except Unit Unit :=
  .ok ()

/-- The per-partial envelope factor computed by the callback:
`np.exp(-(t_cur + t) / tau_list[:, None])` evaluated at total elapsed
time `t` for decay constant `tau`. -/
noncomputable def env (tau t : ℝ) : ℝ :=
  Real.exp (-(t / tau))

/-- The numpy modulo `phases %= 2 * np.pi`: for a positive modulus, numpy
`%` is floor-mod, `x - 2π * ⌊x / (2π)⌋`, with result in `[0, 2π)`. -/
noncomputable def wrap (x : ℝ) : ℝ :=
  x - 2 * Real.pi * (⌊x / (2 * Real.pi)⌋ : ℤ)

/-- Output sample `i` of one callback block: with `t = i / fs`,
`norm * Σ_partials (amp • exp(-(t_cur + t)/tau) • sin(phase + 2π f t))`
(`block = np.sum(amp_list[:,None] * env * sines, axis=0)`,
`outdata[:,0] = norm * block`). -/
noncomputable def sample {P : ℕ} (ss : Session P) (i : ℕ) : ℝ :=
  ss.norm * ∑ k : Fin P,
    ss.amp_list k * env (ss.tau_list k) (ss.t_cur + (i : ℝ) / (ss.fs : ℝ))
      * Real.sin (ss.phases k
          + 2 * Real.pi * ss.f_list k * ((i : ℝ) / (ss.fs : ℝ)))

/-- One invocation of `callback(outdata, frames, time, status)`: it fills
`outdata[:, 0]` with the `frames` samples of the block and then advances
the captured state: `phases += 2π * f_list * (frames / fs)`,
`phases %= 2π`, `t_cur += frames / fs`.  The pair returned is
(the written output block, the session after the nonlocal updates). -/
noncomputable def callback {P : ℕ} (ss : Session P) (frames : ℕ) :
    List ℝ × Session P :=
  ((List.range frames).map (sample ss),
   { ss with
     phases := fun k =>
       wrap (ss.phases k
         + 2 * Real.pi * ss.f_list k * ((frames : ℝ) / (ss.fs : ℝ)))
     t_cur := ss.t_cur + (frames : ℝ) / (ss.fs : ℝ) })

/-- A whole streaming run: the audio device pulls successive blocks of the
given frame counts from one session; the emitted samples are the
concatenation of the blocks, each produced by `callback` on the state the
previous call left behind. -/
noncomputable def renderSeq {P : ℕ} (ss : Session P) : List ℕ → List ℝ
  | [] => []
  | n :: rest => (callback ss n).1 ++ renderSeq (callback ss n).2 rest

/-- The session state left behind after a sequence of callback calls. -/
noncomputable def stepMany {P : ℕ} (ss : Session P) : List ℕ → Session P
  | [] => ss
  | n :: rest => stepMany (callback ss n).2 rest

theorem two_pi_pos : (0 : ℝ) < 2 * Real.pi := by positivity

theorem wrap_eq_fract (x : ℝ) :
    wrap x = 2 * Real.pi * Int.fract (x / (2 * Real.pi)) := by
  have h : 2 * Real.pi * (x / (2 * Real.pi)) = x := by
    field_simp
  rw [wrap, Int.fract, mul_sub, h]

theorem wrap_nonneg (x : ℝ) : 0 ≤ wrap x := by
  rw [wrap_eq_fract]
  exact mul_nonneg (le_of_lt two_pi_pos) (Int.fract_nonneg _)

theorem wrap_lt_two_pi (x : ℝ) : wrap x < 2 * Real.pi := by
  rw [wrap_eq_fract]
  have h := mul_lt_mul_of_pos_left (Int.fract_lt_one (x / (2 * Real.pi)))
    two_pi_pos
  simpa using h

theorem sin_wrap_add (x y : ℝ) :
    Real.sin (wrap x + y) = Real.sin (x + y) := by
  have h : wrap x + y
      = (x + y) - (⌊x / (2 * Real.pi)⌋ : ℤ) * (2 * Real.pi) := by
    rw [wrap]; ring
  rw [h, Real.sin_sub_int_mul_two_pi]

theorem wrap_wrap_add (x y : ℝ) : wrap (wrap x + y) = wrap (x + y) := by
  have hne : (2 * Real.pi) ≠ 0 := ne_of_gt two_pi_pos
  have h : wrap x + y
      = (x + y) - ((⌊x / (2 * Real.pi)⌋ : ℤ) : ℝ) * (2 * Real.pi) := by
    rw [wrap]; ring
  rw [h, wrap, wrap]
  have hdiv :
      ((x + y) - ((⌊x / (2 * Real.pi)⌋ : ℤ) : ℝ) * (2 * Real.pi))
          / (2 * Real.pi)
        = (x + y) / (2 * Real.pi) - (⌊x / (2 * Real.pi)⌋ : ℤ) := by
    field_simp
    ring
  rw [hdiv, Int.floor_sub_int]
  push_cast
  ring

/-- C6: for every partial with decay constant `tau > 0`, the envelope
`env tau t = exp(-t/tau)` used by the renderer satisfies `env tau 0 = 1`
and is strictly decreasing in `t`. -/
theorem c6_env_strict_decreasing (tau : ℝ) (h : 0 < tau) :
    env tau 0 = 1 ∧ ∀ t1 t2 : ℝ, t1 < t2 → env tau t2 < env tau t1 := by
  constructor
  · simp [env]
  · intro t1 t2 hlt
    apply Real.exp_lt_exp.mpr
    have h2 : t1 / tau < t2 / tau := by
      exact div_lt_div_of_pos_right hlt h
    linarith

theorem c6_env_strict_decreasing_witness :
    (0 : ℝ) < 1 ∧ env 1 0 = 1 ∧ env 1 1 < env 1 0 :=
  ⟨by norm_num, (c6_env_strict_decreasing 1 (by norm_num)).1,
    (c6_env_strict_decreasing 1 (by norm_num)).2 0 1 (by norm_num)⟩

/-- C10: every callback invocation mutates only the phase vector and the
elapsed-time accumulator: the frequency, amplitude and decay-constant
arrays and the normalization constant are unchanged by a single call and
by any sequence of calls within one session. -/
theorem stepMany_const_arrays {P : ℕ} (ss : Session P) (ns : List ℕ) :
    (stepMany ss ns).f_list = ss.f_list ∧
    (stepMany ss ns).amp_list = ss.amp_list ∧
    (stepMany ss ns).tau_list = ss.tau_list ∧
    (stepMany ss ns).norm = ss.norm := by
  induction ns generalizing ss with
  | nil => exact ⟨rfl, rfl, rfl, rfl⟩
  | cons n rest ih =>
      simpa [stepMany] using ih (callback ss n).2

theorem c10_callback_frame {P : ℕ} (ss : Session P) :
    (∀ n : ℕ,
      (callback ss n).2.f_list = ss.f_list ∧
      (callback ss n).2.amp_list = ss.amp_list ∧
      (callback ss n).2.tau_list = ss.tau_list ∧
      (callback ss n).2.norm = ss.norm) ∧
    (∀ ns : List ℕ,
      (stepMany ss ns).f_list = ss.f_list ∧
      (stepMany ss ns).amp_list = ss.amp_list ∧
      (stepMany ss ns).tau_list = ss.tau_list ∧
      (stepMany ss ns).norm = ss.norm) :=
  ⟨fun n => ⟨rfl, rfl, rfl, rfl⟩, fun ns => stepMany_const_arrays ss ns⟩

/-- C7: after every callback of `frames` frames, each phase equals the
previous phase advanced by `2π * frequency * (frames / fs)` and reduced
with numpy floor-mod by `2π`, `t_cur` grows by exactly `frames / fs`,
every stored phase lies in `[0, 2π)` after the block, and a freshly built
session starts from `phases = 0` and `t_cur = 0`. -/
theorem c7_phase_state {P : ℕ} (ss : Session P) (frames : ℕ) :
    (∀ k : Fin P, (callback ss frames).2.phases k
        = wrap (ss.phases k
            + 2 * Real.pi * ss.f_list k * ((frames : ℝ) / (ss.fs : ℝ)))) ∧
    (callback ss frames).2.t_cur = ss.t_cur + (frames : ℝ) / (ss.fs : ℝ) ∧
    (∀ k : Fin P, 0 ≤ (callback ss frames).2.phases k ∧
        (callback ss frames).2.phases k < 2 * Real.pi) ∧
    (∀ (q : ℕ) (parts : List (ℝ × ℝ × ℝ)) (k : Fin parts.length),
      (mkSession q parts).phases k = 0 ∧ (mkSession q parts).t_cur = 0) := by
  exact ⟨fun k => rfl, rfl,
    fun k => ⟨wrap_nonneg _, wrap_lt_two_pi _⟩,
    fun q parts k => ⟨rfl, rfl⟩⟩

theorem sessionExt {P : ℕ} (s1 s2 : Session P)
    (h1 : s1.f_list = s2.f_list) (h2 : s1.amp_list = s2.amp_list)
    (h3 : s1.tau_list = s2.tau_list) (h4 : s1.norm = s2.norm)
    (h5 : s1.fs = s2.fs) (h6 : s1.phases = s2.phases)
    (h7 : s1.t_cur = s2.t_cur) : s1 = s2 := by
  cases s1
  cases s2
  simp_all

/-- An output sample of the block after one callback of `N` frames equals
the sample the same session would have produced at index `N + i` of a
longer block: the phase wrap is invisible to `sin` and the elapsed-time
shift matches the time vector shift. -/
theorem sample_callback_shift {P : ℕ} (ss : Session P) (N i : ℕ) :
    sample (callback ss N).2 i = sample ss (N + i) := by
  simp only [sample, callback]
  congr 1
  apply Finset.sum_congr rfl
  intro k _
  have henv : ss.t_cur + (N : ℝ) / (ss.fs : ℝ) + (i : ℝ) / (ss.fs : ℝ)
      = ss.t_cur + ((N + i : ℕ) : ℝ) / (ss.fs : ℝ) := by
    push_cast
    ring
  have harg : ss.phases k
        + 2 * Real.pi * ss.f_list k * ((N : ℝ) / (ss.fs : ℝ))
        + 2 * Real.pi * ss.f_list k * ((i : ℝ) / (ss.fs : ℝ))
      = ss.phases k
        + 2 * Real.pi * ss.f_list k * (((N + i : ℕ) : ℝ) / (ss.fs : ℝ)) := by
    push_cast
    ring
  rw [sin_wrap_add, harg, henv]

/-- C1: from any renderer state, rendering two consecutive blocks of `N`
frames each produces the same output samples, final phases and final
elapsed time as rendering one block of `2N` frames, exactly over real
arithmetic, because phase and `t_cur` persist exactly across calls. -/
theorem c1_two_blocks_eq_one {P : ℕ} (ss : Session P) (N : ℕ) (h : 1 ≤ N) :
    (callback ss N).1 ++ (callback (callback ss N).2 N).1
        = (callback ss (2 * N)).1 ∧
    (callback (callback ss N).2 N).2 = (callback ss (2 * N)).2 := by
  constructor
  · show (List.range N).map (sample ss)
          ++ (List.range N).map (sample (callback ss N).2)
        = (List.range (2 * N)).map (sample ss)
    rw [two_mul, List.range_add, List.map_append, List.map_map]
    congr 1
    apply List.map_congr_left
    intro i _
    exact sample_callback_shift ss N i
  · have hph : (callback (callback ss N).2 N).2.phases
        = (callback ss (2 * N)).2.phases := by
      funext k
      simp only [callback]
      rw [wrap_wrap_add]
      congr 1
      push_cast
      ring
    have ht : (callback (callback ss N).2 N).2.t_cur
        = (callback ss (2 * N)).2.t_cur := by
      simp only [callback]
      push_cast
      ring
    exact sessionExt _ _ rfl rfl rfl rfl rfl hph ht

/-- A tiny concrete session (one partial at 1 Hz, sample rate 2) used to
instantiate theorems with hypotheses at a concrete input. -/
noncomputable def demoSession : Session 1 where
  f_list := fun _ => 1
  amp_list := fun _ => 1
  tau_list := fun _ => 1
  norm := 1
  fs := 2
  phases := fun _ => 0
  t_cur := 0

theorem c1_two_blocks_eq_one_witness :
    1 ≤ 1 ∧
    ((callback demoSession 1).1 ++ (callback (callback demoSession 1).2 1).1
        = (callback demoSession (2 * 1)).1 ∧
      (callback (callback demoSession 1).2 1).2
        = (callback demoSession (2 * 1)).2) :=
  ⟨le_refl 1, c1_two_blocks_eq_one demoSession 1 (le_refl 1)⟩

/-- The positive direction: for `j < n_harmonics` the per-ratio partial
list has an entry at index `j` carrying the frequency, amplitude and
decay values computed by the loop body. -/
theorem buildRatioParts_getElem (s : SynthParams) (base v : ℝ)
    (draw : ℕ → ℝ) (j : ℕ) (hj : j < s.n_harmonics) :
    (buildRatioParts s base v draw)[j]?
      = some ((if 0 < s.jitter
          then base * v * ((j + 1 : ℕ) : ℝ)
              * Real.sqrt (1 + calc_B s (base * v)
                  * ((j + 1 : ℕ) : ℝ) ^ (2 : ℕ)) + draw (j + 1)
          else base * v * ((j + 1 : ℕ) : ℝ)
              * Real.sqrt (1 + calc_B s (base * v)
                  * ((j + 1 : ℕ) : ℝ) ^ (2 : ℕ))),
        1 / ((j + 1 : ℕ) : ℝ) ^ s.rolloff_coeff,
        s.decay_time / ((j + 1 : ℕ) : ℝ) ^ s.decay_exponent) := by
  simp [buildRatioParts, List.getElem?_map, List.getElem?_range hj]

/-- Inversion for one builder iteration: entry `j` of the per-ratio
partial list exists only for `j < n_harmonics` and is the loop-body
value. -/
theorem buildRatioParts_inv (s : SynthParams) (base v : ℝ) (draw : ℕ → ℝ)
    (j : ℕ) (x : ℝ × ℝ × ℝ)
    (h : (buildRatioParts s base v draw)[j]? = some x) :
    j < s.n_harmonics ∧
    x = ((if 0 < s.jitter
          then base * v * ((j + 1 : ℕ) : ℝ)
              * Real.sqrt (1 + calc_B s (base * v)
                  * ((j + 1 : ℕ) : ℝ) ^ (2 : ℕ)) + draw (j + 1)
          else base * v * ((j + 1 : ℕ) : ℝ)
              * Real.sqrt (1 + calc_B s (base * v)
                  * ((j + 1 : ℕ) : ℝ) ^ (2 : ℕ))),
        1 / ((j + 1 : ℕ) : ℝ) ^ s.rolloff_coeff,
        s.decay_time / ((j + 1 : ℕ) : ℝ) ^ s.decay_exponent) := by
  rcases Nat.lt_or_ge j s.n_harmonics with hj | hj
  · refine ⟨hj, ?_⟩
    rw [buildRatioParts_getElem s base v draw j hj] at h
    exact (Option.some_inj.mp h).symm
  · exfalso
    have hnone : (buildRatioParts s base v draw)[j]? = none := by
      apply List.getElem?_eq_none
      simpa [buildRatioParts] using hj
    rw [hnone] at h
    exact Option.noConfusion h

/-- C2: with jitter disabled, harmonic `k = j + 1` of a ratio with value
`v` gets frequency `pitch * k * sqrt(1 + B * k^2)` where
`pitch = base * v` and `B = B0 * (pitch / f0) ^ beta` (the source
`calc_B`); and with `B0 = 0`, `n_harmonics = 4` and ratio value `1`, the
partial frequencies are exactly `base * k` for `k = 1..4`. -/
theorem c2_stretched_harmonics (s : SynthParams) (base v : ℝ)
    (draw : ℕ → ℝ) (hjit : s.jitter = 0) (hv : 0 < v) :
    (∀ (j : ℕ) (x : ℝ × ℝ × ℝ),
      (buildRatioParts s base v draw)[j]? = some x →
      x.1 = (base * v) * ((j + 1 : ℕ) : ℝ)
          * Real.sqrt (1 + s.B0 * ((base * v) / s.f0) ^ s.beta
              * ((j + 1 : ℕ) : ℝ) ^ (2 : ℕ))) ∧
    (s.B0 = 0 → s.n_harmonics = 4 → v = 1 →
      (buildRatioParts s base v draw).map (fun x => x.1)
        = [base * 1, base * 2, base * 3, base * 4]) := by
  have hnjit : ¬ 0 < s.jitter := by
    rw [hjit]
    exact lt_irrefl 0
  constructor
  · intro j x hx
    rcases buildRatioParts_inv s base v draw j x hx with ⟨hj, hxe⟩
    rw [hxe]
    simp only [if_neg hnjit]
    rfl
  · intro hB0 hn hv1
    subst hv1
    simp [buildRatioParts, hn, calc_B, hB0, if_neg hnjit, List.range_succ,
      Real.sqrt_one]
    norm_num

/-- A concrete parameter snapshot with jitter and inharmonicity disabled
and four harmonics, used to instantiate the builder theorems. -/
def c2params : SynthParams where
  fs := 44100
  n_harmonics := 4
  rolloff_coeff := 1
  decay_time := 1
  decay_exponent := 0
  f0 := 440
  B0 := 0
  beta := 1
  jitter := 0
  duration := 1

theorem c2_stretched_harmonics_witness :
    c2params.jitter = 0 ∧ (0 : ℝ) < 1 ∧
    (buildRatioParts c2params 220 1 (fun _ => 0)).map (fun x => x.1)
      = [220 * 1, 220 * 2, 220 * 3, 220 * 4] :=
  ⟨rfl, by norm_num,
    (c2_stretched_harmonics c2params 220 1 (fun _ => 0) rfl
      (by norm_num)).2 rfl rfl rfl⟩

/-- C5: harmonic `k = j + 1` gets amplitude `1 / k ^ p` and decay
constant `tau0 / k ^ d`; with `p > 0` amplitudes are non-increasing in
`k`, with `d > 0` (and `tau0 > 0`, the spec's domain for `decay_time`)
higher harmonics get strictly smaller decay constants; with
`n_harmonics = 1` and `d = 0` every partial of the ratio has amplitude
`1` and decay constant `tau0`. -/
theorem c5_rolloff_and_decay (s : SynthParams) (base v : ℝ)
    (draw : ℕ → ℝ) :
    (∀ (j : ℕ) (x : ℝ × ℝ × ℝ),
      (buildRatioParts s base v draw)[j]? = some x →
      x.2.1 = 1 / ((j + 1 : ℕ) : ℝ) ^ s.rolloff_coeff ∧
      x.2.2 = s.decay_time / ((j + 1 : ℕ) : ℝ) ^ s.decay_exponent) ∧
    (∀ (j1 j2 : ℕ) (x1 x2 : ℝ × ℝ × ℝ),
      (buildRatioParts s base v draw)[j1]? = some x1 →
      (buildRatioParts s base v draw)[j2]? = some x2 →
      j1 < j2 →
      (0 < s.rolloff_coeff → x2.2.1 ≤ x1.2.1) ∧
      (0 < s.decay_exponent → 0 < s.decay_time → x2.2.2 < x1.2.2)) ∧
    (s.n_harmonics = 1 → s.decay_exponent = 0 →
      ∀ x ∈ buildRatioParts s base v draw,
        x.2.1 = 1 ∧ x.2.2 = s.decay_time) := by
  refine ⟨?_, ?_, ?_⟩
  · intro j x hx
    rcases buildRatioParts_inv s base v draw j x hx with ⟨-, hxe⟩
    rw [hxe]
    exact ⟨rfl, rfl⟩
  · intro j1 j2 x1 x2 hx1 hx2 hlt
    rcases buildRatioParts_inv s base v draw j1 x1 hx1 with ⟨-, hx1e⟩
    rcases buildRatioParts_inv s base v draw j2 x2 hx2 with ⟨-, hx2e⟩
    have hk1 : (0 : ℝ) < ((j1 + 1 : ℕ) : ℝ) := by positivity
    have hk2 : (0 : ℝ) < ((j2 + 1 : ℕ) : ℝ) := by positivity
    have hklt : ((j1 + 1 : ℕ) : ℝ) < ((j2 + 1 : ℕ) : ℝ) := by
      push_cast
      exact_mod_cast by omega
    constructor
    · intro hp
      rw [hx1e, hx2e]
      have hpow : ((j1 + 1 : ℕ) : ℝ) ^ s.rolloff_coeff
          < ((j2 + 1 : ℕ) : ℝ) ^ s.rolloff_coeff :=
        Real.rpow_lt_rpow (le_of_lt hk1) hklt hp
      exact le_of_lt (one_div_lt_one_div_of_lt
        (Real.rpow_pos_of_pos hk1 _) hpow)
    · intro hd htau
      rw [hx1e, hx2e]
      have hpow : ((j1 + 1 : ℕ) : ℝ) ^ s.decay_exponent
          < ((j2 + 1 : ℕ) : ℝ) ^ s.decay_exponent :=
        Real.rpow_lt_rpow (le_of_lt hk1) hklt hd
      exact div_lt_div_of_pos_left htau
        (Real.rpow_pos_of_pos hk1 _) hpow
  · intro hn hd x hx
    simp only [buildRatioParts, List.mem_map, List.mem_range] at hx
    rcases hx with ⟨j, hj, hxe⟩
    rw [hn] at hj
    interval_cases j
    rw [← hxe]
    constructor
    · simp [Real.one_rpow]
    · simp [Real.one_rpow]

/-- Two harmonics with unit rolloff and decay exponents, jitter and
inharmonicity off. -/
def c5params : SynthParams where
  fs := 44100
  n_harmonics := 2
  rolloff_coeff := 1
  decay_time := 1
  decay_exponent := 1
  f0 := 440
  B0 := 0
  beta := 1
  jitter := 0
  duration := 1

/-- A single harmonic with zero decay exponent, jitter and inharmonicity
off. -/
def c5bparams : SynthParams where
  fs := 44100
  n_harmonics := 1
  rolloff_coeff := 1
  decay_time := 7
  decay_exponent := 0
  f0 := 440
  B0 := 0
  beta := 1
  jitter := 0
  duration := 1

theorem c5_parts_eq :
    buildRatioParts c5params 220 1 (fun _ => 0)
      = [(220, 1, 1), (440, 1 / 2, 1 / 2)] := by
  simp only [buildRatioParts, c5params, calc_B, List.range_succ,
    List.range_zero, List.nil_append, List.map_append, List.map_cons,
    List.map_nil, List.singleton_append]
  norm_num [Real.sqrt_one, Real.one_rpow, Real.rpow_one]

theorem c5b_parts_eq :
    buildRatioParts c5bparams 220 1 (fun _ => 0) = [(220, 1, 7)] := by
  simp only [buildRatioParts, c5bparams, calc_B, List.range_succ,
    List.range_zero, List.nil_append, List.map_cons, List.map_nil]
  norm_num [Real.sqrt_one, Real.one_rpow, Real.rpow_zero]

theorem c5_rolloff_and_decay_witness :
    (buildRatioParts c5params 220 1 (fun _ => 0))[0]? = some (220, 1, 1) ∧
    (buildRatioParts c5params 220 1 (fun _ => 0))[1]?
        = some (440, 1 / 2, 1 / 2) ∧
    (0 : ℝ) < c5params.rolloff_coeff ∧
    (0 : ℝ) < c5params.decay_exponent ∧
    (0 : ℝ) < c5params.decay_time ∧
    ((1 : ℝ) = 1 / ((0 + 1 : ℕ) : ℝ) ^ c5params.rolloff_coeff ∧
      (1 : ℝ) = c5params.decay_time
          / ((0 + 1 : ℕ) : ℝ) ^ c5params.decay_exponent) ∧
    ((1 / 2 : ℝ) ≤ 1 ∧ (1 / 2 : ℝ) < 1) ∧
    ((1 : ℝ) = 1 ∧ (7 : ℝ) = c5bparams.decay_time) := by
  have h0 : (buildRatioParts c5params 220 1 (fun _ => 0))[0]?
      = some (220, 1, 1) := by
    rw [c5_parts_eq]
    rfl
  have h1 : (buildRatioParts c5params 220 1 (fun _ => 0))[1]?
      = some (440, 1 / 2, 1 / 2) := by
    rw [c5_parts_eq]
    rfl
  have hmem : ((220 : ℝ), (1 : ℝ), (7 : ℝ))
      ∈ buildRatioParts c5bparams 220 1 (fun _ => 0) := by
    rw [c5b_parts_eq]
    exact List.mem_singleton.mpr rfl
  refine ⟨h0, h1, by norm_num [c5params], by norm_num [c5params],
    by norm_num [c5params],
    (c5_rolloff_and_decay c5params 220 1 (fun _ => 0)).1 0 _ h0, ?_, ?_⟩
  · have h := ((c5_rolloff_and_decay c5params 220 1 (fun _ => 0)).2.1
      0 1 _ _ h0 h1 (by norm_num))
    exact ⟨h.1 (by norm_num [c5params]),
      h.2 (by norm_num [c5params]) (by norm_num [c5params])⟩
  · exact (c5_rolloff_and_decay c5bparams 220 1 (fun _ => 0)).2.2
      rfl rfl _ hmem

/-- Every pre-normalization amplitude `1 / k ^ p` produced by one builder
iteration is strictly positive. -/
theorem buildRatioParts_amp_pos (s : SynthParams) (base v : ℝ)
    (draw : ℕ → ℝ) : ∀ x ∈ buildRatioParts s base v draw, 0 < x.2.1 := by
  intro x hx
  simp only [buildRatioParts, List.mem_map, List.mem_range] at hx
  rcases hx with ⟨j, hj, hxe⟩
  rw [← hxe]
  have hk : (0 : ℝ) < ((j + 1 : ℕ) : ℝ) := by positivity
  exact div_pos one_pos (Real.rpow_pos_of_pos hk _)

/-- Every pre-normalization amplitude in a successfully built partial
collection is strictly positive. -/
theorem buildParts_amp_pos (s : SynthParams) (base : ℝ)
    (ratios : List EvalResult) (draw : ℕ → ℕ → ℝ) :
    ∀ (i : ℕ) (parts : List (ℝ × ℝ × ℝ)),
      buildParts s base ratios draw i = .ok parts →
      ∀ x ∈ parts, 0 < x.2.1 := by
  induction ratios with
  | nil =>
      intro i parts h x hx
      simp only [buildParts, Except.ok.injEq] at h
      rw [← h] at hx
      exact absurd hx (List.not_mem_nil x)
  | cons r rest ih =>
      intro i parts h x hx
      cases r with
      | err => simp [buildParts] at h
      | ok v =>
          simp only [buildParts] at h
          cases hrec : buildParts s base rest draw (i + 1) with
          | error e => rw [hrec] at h; exact absurd h (by simp)
          | ok tail =>
              rw [hrec] at h
              simp only [Except.ok.injEq] at h
              rw [← h] at hx
              rcases List.mem_append.mp hx with hx1 | hx2
              · exact buildRatioParts_amp_pos s base v (draw i) x hx1
              · exact ih (i + 1) tail hrec x hx2

/-- The scenario parameters: one harmonic, unit rolloff, decay time 1 s,
zero decay exponent, inharmonicity and jitter off. -/
def c3params : SynthParams where
  fs := 44100
  n_harmonics := 1
  rolloff_coeff := 1
  decay_time := 1
  decay_exponent := 0
  f0 := 440
  B0 := 0
  beta := 1
  jitter := 0
  duration := 1

theorem c3_build_eq :
    buildParts c3params 220 [.ok 1, .ok 1.5] (fun _ _ => 0) 0
      = .ok [(220, 1, 1), (330, 1, 1)] := by
  simp only [buildParts, buildRatioParts, c3params, calc_B,
    List.range_succ, List.range_zero, List.nil_append, List.map_cons,
    List.map_nil]
  norm_num [Real.sqrt_one, Real.one_rpow, Real.rpow_zero]

/-- C3: for every successfully built non-empty partial collection the
normalization constant is `0.3 / Σ amplitude` (`target_peak = 0.3`), the
sum of normalized amplitudes never exceeds `0.3`; and in the scenario
`base = 220`, ratios `["1.0", "1.5"]`, one harmonic, unit rolloff, the
two partials sit at 220 Hz and 330 Hz with decay constant 1 and each get
normalized amplitude `0.3 / 2 = 0.15`. -/
theorem c3_normalization :
    (∀ (s : SynthParams) (base : ℝ) (ratios : List EvalResult)
        (draw : ℕ → ℕ → ℝ) (parts : List (ℝ × ℝ × ℝ)),
      buildParts s base ratios draw 0 = .ok parts → parts ≠ [] →
      (mkSession s.fs parts).norm
          = 0.3 / (parts.map (fun x => x.2.1)).sum ∧
      (parts.map (fun x => x.2.1)).sum * (mkSession s.fs parts).norm
          ≤ 0.3) ∧
    (buildParts c3params 220 [.ok 1, .ok 1.5] (fun _ _ => 0) 0
        = .ok [(220, 1, 1), (330, 1, 1)] ∧
      (mkSession c3params.fs [(220, 1, 1), (330, 1, 1)]).norm = 0.15 ∧
      ∀ x ∈ ([(220, 1, 1), (330, 1, 1)] : List (ℝ × ℝ × ℝ)),
        x.2.1 * (mkSession c3params.fs [(220, 1, 1), (330, 1, 1)]).norm
          = 0.15) := by
  constructor
  · intro s base ratios draw parts h hne
    refine ⟨rfl, ?_⟩
    have hpos : ∀ x ∈ parts, 0 < x.2.1 :=
      buildParts_amp_pos s base ratios draw 0 parts h
    have hsum : 0 < (parts.map (fun x => x.2.1)).sum := by
      apply List.sum_pos
      · intro a ha
        rcases List.mem_map.mp ha with ⟨x, hx, hax⟩
        rw [← hax]
        exact hpos x hx
      · simpa using hne
    show (parts.map (fun x => x.2.1)).sum
        * (0.3 / (parts.map (fun x => x.2.1)).sum) ≤ 0.3
    rw [mul_comm, div_mul_cancel₀ _ (ne_of_gt hsum)]
  · refine ⟨c3_build_eq, ?_, ?_⟩
    · show (0.3 : ℝ) / ((([(220, 1, 1), (330, 1, 1)]
          : List (ℝ × ℝ × ℝ)).map (fun x => x.2.1)).sum) = 0.15
      norm_num
    · intro x hx
      have hnorm : (mkSession c3params.fs
          [(220, 1, 1), (330, 1, 1)]).norm = 0.15 := by
        show (0.3 : ℝ) / ((([(220, 1, 1), (330, 1, 1)]
            : List (ℝ × ℝ × ℝ)).map (fun x => x.2.1)).sum) = 0.15
        norm_num
      rw [hnorm]
      fin_cases hx <;> norm_num

theorem c3_normalization_witness :
    buildParts c3params 220 [.ok 1, .ok 1.5] (fun _ _ => 0) 0
        = .ok [(220, 1, 1), (330, 1, 1)] ∧
    ([(220, 1, 1), (330, 1, 1)] : List (ℝ × ℝ × ℝ)) ≠ [] ∧
    ((mkSession c3params.fs [(220, 1, 1), (330, 1, 1)]).norm
        = 0.3 / (([(220, 1, 1), (330, 1, 1)]
            : List (ℝ × ℝ × ℝ)).map (fun x => x.2.1)).sum ∧
      (([(220, 1, 1), (330, 1, 1)]
          : List (ℝ × ℝ × ℝ)).map (fun x => x.2.1)).sum
        * (mkSession c3params.fs [(220, 1, 1), (330, 1, 1)]).norm
        ≤ 0.3) :=
  ⟨c3_build_eq, by simp,
    c3_normalization.1 c3params 220 [.ok 1, .ok 1.5] (fun _ _ => 0)
      [(220, 1, 1), (330, 1, 1)] c3_build_eq (by simp)⟩

/-- A ratio whose `eval` raises aborts the whole build with an error,
wherever it sits in the ratio list. -/
theorem buildParts_err (s : SynthParams) (base : ℝ) (draw : ℕ → ℕ → ℝ) :
    ∀ (ratios : List EvalResult) (i : ℕ), EvalResult.err ∈ ratios →
      buildParts s base ratios draw i = .error () := by
  intro ratios
  induction ratios with
  | nil =>
      intro i h
      exact absurd h (List.not_mem_nil _)
  | cons r rest ih =>
      intro i h
      cases r with
      | err => simp [buildParts]
      | ok v =>
          have hrest : EvalResult.err ∈ rest := by
            rcases List.mem_cons.mp h with h1 | h1
            · exact absurd h1 (by simp)
            · exact h1
          simp [buildParts, ih (i + 1) hrest]

/-- Parameters with `n_harmonics = 0`: the source performs no validation,
`np.arange(1, 1)` is empty and the build succeeds with zero partials. -/
def c4zparams : SynthParams where
  fs := 44100
  n_harmonics := 0
  rolloff_coeff := 1
  decay_time := 1
  decay_exponent := 0
  f0 := 440
  B0 := 0
  beta := 1
  jitter := 0
  duration := 1

/-- C4 counterexample: triggering playback with the unparseable ratio
"abc" reports no error synchronously — `play_chord` just spawns the
thread and returns ok — even though the build inside the thread fails;
and `n_harmonics = 0` raises no input error at all: the build succeeds
with an empty partial collection. -/
theorem c4_counterexample :
    play_chord [EvalResult.err] = .ok () ∧
    buildParts c3params 220 [EvalResult.err] (fun _ _ => 0) 0
      = .error () ∧
    buildParts c4zparams 220 [EvalResult.ok 1] (fun _ _ => 0) 0
      = .ok [] := by
  refine ⟨rfl, rfl, ?_⟩
  simp [buildParts, buildRatioParts, c4zparams]

/-- C4 (amended): an unparseable ratio aborts partial construction inside
the spawned playback thread — the build yields an error, so no partial
collection, normalization constant or render state is ever produced and
no stream is opened — but the error is asynchronous: `play_chord` itself
returns to its caller with no error report. -/
theorem c4_async_input_error (s : SynthParams) (base : ℝ)
    (ratios : List EvalResult) (draw : ℕ → ℕ → ℝ)
    (h : EvalResult.err ∈ ratios) :
    (∀ parts, buildParts s base ratios draw 0 ≠ .ok parts) ∧
    playBuild s base ratios draw = .error () ∧
    play_chord ratios = .ok () := by
  have hb : buildParts s base ratios draw 0 = .error () :=
    buildParts_err s base draw ratios 0 h
  refine ⟨?_, ?_, rfl⟩
  · intro parts hc
    rw [hb] at hc
    exact Except.noConfusion hc
  · simp [playBuild, hb]

theorem c4_async_input_error_witness :
    EvalResult.err ∈ [EvalResult.err] ∧
    ((∀ parts, buildParts c3params 220 [EvalResult.err] (fun _ _ => 0) 0
        ≠ .ok parts) ∧
      playBuild c3params 220 [EvalResult.err] (fun _ _ => 0)
        = .error () ∧
      play_chord [EvalResult.err] = .ok ()) :=
  ⟨List.mem_singleton.mpr rfl,
    c4_async_input_error c3params 220 [EvalResult.err] (fun _ _ => 0)
      (List.mem_singleton.mpr rfl)⟩

/-- With jitter disabled the random draws never enter the loop body, so
one builder iteration is independent of the draw function. -/
theorem buildRatioParts_nojitter (s : SynthParams) (base v : ℝ)
    (d1 d2 : ℕ → ℝ) (hjit : s.jitter = 0) :
    buildRatioParts s base v d1 = buildRatioParts s base v d2 := by
  have hnjit : ¬ 0 < s.jitter := by
    rw [hjit]
    exact lt_irrefl 0
  simp [buildRatioParts, if_neg hnjit]

theorem buildParts_nojitter (s : SynthParams) (base : ℝ)
    (d1 d2 : ℕ → ℕ → ℝ) (hjit : s.jitter = 0) :
    ∀ (ratios : List EvalResult) (i : ℕ),
      buildParts s base ratios d1 i = buildParts s base ratios d2 i := by
  intro ratios
  induction ratios with
  | nil => intro i; rfl
  | cons r rest ih =>
      intro i
      cases r with
      | err => rfl
      | ok v =>
          simp only [buildParts, ih (i + 1),
            buildRatioParts_nojitter s base v (d1 i) (d2 i) hjit]

/-- C8: with `jitter = 0` the build-and-render pipeline is a
deterministic function of the chord request and parameters: the random
draw function is never consulted, so two complete renders — build
followed by any sequence of block renders — produce identical sessions
and identical output samples. -/
theorem c8_deterministic (s : SynthParams) (base : ℝ)
    (ratios : List EvalResult) (draw1 draw2 : ℕ → ℕ → ℝ)
    (hjit : s.jitter = 0) :
    playBuild s base ratios draw1 = playBuild s base ratios draw2 ∧
    ∀ ns : List ℕ,
      (playBuild s base ratios draw1).map (fun ps => renderSeq ps.2 ns)
        = (playBuild s base ratios draw2).map
            (fun ps => renderSeq ps.2 ns) := by
  have hb : playBuild s base ratios draw1
      = playBuild s base ratios draw2 := by
    simp only [playBuild, buildParts_nojitter s base draw1 draw2 hjit]
  exact ⟨hb, fun ns => by rw [hb]⟩

theorem c8_deterministic_witness :
    c3params.jitter = 0 ∧
    playBuild c3params 220 [EvalResult.ok 1] (fun _ _ => 0)
        = playBuild c3params 220 [EvalResult.ok 1] (fun _ _ => 1) ∧
    (playBuild c3params 220 [EvalResult.ok 1] (fun _ _ => 0)).map
        (fun ps => renderSeq ps.2 [4096, 4096])
      = (playBuild c3params 220 [EvalResult.ok 1] (fun _ _ => 1)).map
          (fun ps => renderSeq ps.2 [4096, 4096]) :=
  ⟨rfl,
    (c8_deterministic c3params 220 [EvalResult.ok 1] (fun _ _ => 0)
      (fun _ _ => 1) rfl).1,
    (c8_deterministic c3params 220 [EvalResult.ok 1] (fun _ _ => 0)
      (fun _ _ => 1) rfl).2 [4096, 4096]⟩

/-- The unperturbed stretched-harmonic frequency `f_k` of harmonic
`k = j + 1` (the `fk0` of the builder loop, before the jitter draw is
added). -/
noncomputable def unperturbedFreq (s : SynthParams) (base v : ℝ)
    (j : ℕ) : ℝ :=
  base * v * ((j + 1 : ℕ) : ℝ)
    * Real.sqrt (1 + calc_B s (base * v) * ((j + 1 : ℕ) : ℝ) ^ (2 : ℕ))

/-- Jitter 2 Hz against a 1 Hz fundamental: large enough to push the
perturbed frequency below zero. -/
def c9params : SynthParams where
  fs := 44100
  n_harmonics := 1
  rolloff_coeff := 1
  decay_time := 1
  decay_exponent := 0
  f0 := 440
  B0 := 0
  beta := 1
  jitter := 2
  duration := 1

/-- C9 counterexample: the builder does not clamp or re-derive jittered
frequencies; with fundamental 1 Hz, jitter 2 Hz and an in-range draw of
-2, the stored partial frequency is -1 ≤ 0. -/
theorem c9_counterexample :
    (0 : ℝ) < c9params.jitter ∧
    |(-2 : ℝ)| ≤ c9params.jitter ∧
    (buildRatioParts c9params 1 1 (fun _ => -2)).map (fun x => x.1)
      = [-1] ∧
    (-1 : ℝ) ≤ 0 := by
  refine ⟨by norm_num [c9params], by norm_num [c9params], ?_, by norm_num⟩
  simp only [buildRatioParts, c9params, calc_B, List.range_succ,
    List.range_zero, List.nil_append, List.map_cons, List.map_nil]
  norm_num [Real.sqrt_one]

/-- C9 (amended): with `jitter > 0` each harmonic's stored frequency is
the unperturbed stretched frequency plus exactly one draw, taken once at
build time; if every draw lies in `[-jitter, +jitter]` (as
`np.random.uniform(-jitter, +jitter)` guarantees) the stored frequency
lies in `[f_k - jitter, f_k + jitter]`; the frequency array is fixed
across all render calls of a session.  No clamping is performed, so the
stored frequency can be ≤ 0 when jitter ≥ f_k. -/
theorem c9_jitter_bounds (s : SynthParams) (base v : ℝ) (draw : ℕ → ℝ)
    (hjit : 0 < s.jitter) (hdraw : ∀ k, |draw k| ≤ s.jitter) :
    (∀ (j : ℕ) (x : ℝ × ℝ × ℝ),
      (buildRatioParts s base v draw)[j]? = some x →
      x.1 = unperturbedFreq s base v j + draw (j + 1) ∧
      unperturbedFreq s base v j - s.jitter ≤ x.1 ∧
      x.1 ≤ unperturbedFreq s base v j + s.jitter) ∧
    (∀ (P : ℕ) (ss : Session P) (ns : List ℕ),
      (stepMany ss ns).f_list = ss.f_list) := by
  constructor
  · intro j x hx
    rcases buildRatioParts_inv s base v draw j x hx with ⟨-, hxe⟩
    have hx1 : x.1 = unperturbedFreq s base v j + draw (j + 1) := by
      rw [hxe]
      simp only [if_pos hjit]
      rfl
    rcases abs_le.mp (hdraw (j + 1)) with ⟨hlo, hhi⟩
    refine ⟨hx1, ?_, ?_⟩
    · rw [hx1]; linarith
    · rw [hx1]; linarith
  · intro P ss ns
    exact (stepMany_const_arrays ss ns).1

theorem c9_jitter_bounds_witness :
    (0 : ℝ) < c9params.jitter ∧
    |(-2 : ℝ)| ≤ c9params.jitter ∧
    (buildRatioParts c9params 1 1 (fun _ => -2))[0]?
        = some ((-1 : ℝ), 1, 1) ∧
    ((-1 : ℝ) = unperturbedFreq c9params 1 1 0 + (-2) ∧
      unperturbedFreq c9params 1 1 0 - c9params.jitter ≤ -1 ∧
      (-1 : ℝ) ≤ unperturbedFreq c9params 1 1 0 + c9params.jitter) := by
  have h0 : (buildRatioParts c9params 1 1 (fun _ => -2))[0]?
      = some ((-1 : ℝ), 1, 1) := by
    have he : (buildRatioParts c9params 1 1 (fun _ => -2))
        = [((-1 : ℝ), 1, 1)] := by
      simp only [buildRatioParts, c9params, calc_B, List.range_succ,
        List.range_zero, List.nil_append, List.map_cons, List.map_nil]
      norm_num [Real.sqrt_one, Real.one_rpow, Real.rpow_zero]
    rw [he]
    rfl
  have hmain := (c9_jitter_bounds c9params 1 1 (fun _ => -2)
    (by norm_num [c9params]) (fun k => by norm_num [c9params])).1
    0 ((-1 : ℝ), 1, 1) h0
  exact ⟨by norm_num [c9params], by norm_num [c9params], h0, hmain⟩

end ChordTrainer
